import Mathlib

/-!
# Binary search tree of `tree.c`

A shallow embedding of `src/tree.c`: the node structure, `create_node`, `insert`,
`search`, the three traversals, `free_tree`, and the insertion loop of `main`.

Modelling decisions.

* `struct Node *` is a pointer that is either `NULL` or the address of a node owning its
  two children.  Only trees built by `insert` are considered, so there is no sharing and no
  cycle, and the pointer graph is the inductive type `Node`.
* `int` keys are modelled by `Int`.  The program only compares keys (`<`, `==`) and never
  computes with them, so no overflow can occur; every theorem quantified over `Int` holds in
  particular for the keys representable in a C `int`.
* `create_node` is modelled on the path where `malloc` succeeds.  When `malloc` fails the
  program prints a message and exits, so no tree is produced at all.
* `insert` updates a child link in place and returns `root`; the model returns the updated
  tree.
* `search` returns a pointer to the node found; the model returns the subtree rooted at
  that node, `none` standing for `NULL`.
* The traversals print each key with `printf("%d ", ...)`; the model returns the list of
  keys printed, in order.
* `free_tree` calls `free` on every node; the model returns the sequence of nodes freed, in
  the order of the calls.
-/

namespace Trees

/-- A value of type `struct Node *`: `null` is `NULL`, `mk key left right` is a pointer to a
node with the given fields. -/
inductive Node where
  | null : Node
  | mk (key : Int) (left : Node) (right : Node) : Node
  deriving DecidableEq, Repr

/-- Source `create_node`: a fresh node holding `key`, both children `NULL`. -/
def create_node (key : Int) : Node :=
  Node.mk key Node.null Node.null

/-- Source `insert`: on `NULL` create a node; otherwise descend left when `key < root->key`
and right otherwise, rebinding that child, and return `root`. -/
def insert : Node → Int → Node
  | Node.null, key => create_node key
  | Node.mk rk l r, key =>
    if key < rk then Node.mk rk (insert l key) r
    else Node.mk rk l (insert r key)

/-- Source `search`: `NULL` gives `NULL`; an equal key returns the node; a smaller key recurses
left; anything else recurses right. -/
def search : Node → Int → Option Node
  | Node.null, _ => none
  | Node.mk rk l r, key =>
    if key = rk then some (Node.mk rk l r)
    else if key < rk then search l key
    else search r key

/-- Source `inorder`: right subtree, then the node, then the left subtree. -/
def inorder : Node → List Int
  | Node.null => []
  | Node.mk k l r => inorder r ++ k :: inorder l

/-- Source `preorder`: the node, then the left subtree, then the right subtree. -/
def preorder : Node → List Int
  | Node.null => []
  | Node.mk k l r => k :: (preorder l ++ preorder r)

/-- Source `postorder`: left subtree, then right subtree, then the node. -/
def postorder : Node → List Int
  | Node.null => []
  | Node.mk k l r => postorder l ++ (postorder r ++ [k])

/-- The insertion loop of `main`: `for (i = 0; i < n; ++i) root = insert(root, keys[i]);`. -/
def insertKeys (root : Node) (keys : List Int) : Node :=
  keys.foldl insert root

/-- The key array of `main`. -/
def mainKeys : List Int := [76, 33, 80, 10, 20, 50, 12]

/-- The tree `main` holds after its insertion loop. -/
def mainTree : Node := insertKeys Node.null mainKeys

/-! ## Specification vocabulary -/

/-- Number of nodes of a tree. -/
def size : Node → Nat
  | Node.null => 0
  | Node.mk _ l r => size l + size r + 1

/-- The multiset of keys stored in a tree. -/
def keyMultiset : Node → Multiset Int
  | Node.null => 0
  | Node.mk k l r => k ::ₘ (keyMultiset l + keyMultiset r)

/-- Every key stored in the tree satisfies `p`. -/
def allKeys (p : Int → Prop) : Node → Prop
  | Node.null => True
  | Node.mk k l r => p k ∧ allKeys p l ∧ allKeys p r

/-- The BST order invariant of the data model: at every node, the keys of the left subtree are
strictly smaller than the node key and the keys of the right subtree are greater or equal. -/
def ordered : Node → Prop
  | Node.null => True
  | Node.mk k l r =>
    allKeys (fun x => x < k) l ∧ allKeys (fun x => k ≤ x) r ∧ ordered l ∧ ordered r

/-- Deciding `allKeys` for a decidable predicate. -/
def allKeys.dec (p : Int → Prop) [DecidablePred p] : (t : Node) → Decidable (allKeys p t)
  | Node.null => isTrue True.intro
  | Node.mk k l r =>
    have := allKeys.dec p l
    have := allKeys.dec p r
    (inferInstance : Decidable (p k ∧ allKeys p l ∧ allKeys p r))

instance (p : Int → Prop) [DecidablePred p] (t : Node) : Decidable (allKeys p t) :=
  allKeys.dec p t

/-- Deciding the BST order invariant. -/
def ordered.dec : (t : Node) → Decidable (ordered t)
  | Node.null => isTrue True.intro
  | Node.mk k l r =>
    have := ordered.dec l
    have := ordered.dec r
    (inferInstance : Decidable
      (allKeys (fun x => x < k) l ∧ allKeys (fun x => k ≤ x) r ∧ ordered l ∧ ordered r))

instance (t : Node) : Decidable (ordered t) := ordered.dec t

/-- The traversal order announced by the comment above the traversals of `tree.c`
("Inorder: izquierda, raíz, derecha"): left subtree, node, right subtree.  This follows the
documentation, not the code of `inorder`. -/
def inorder_documented : Node → List Int
  | Node.null => []
  | Node.mk k l r => inorder_documented l ++ k :: inorder_documented r

/-- Source `free_tree`: on `NULL` nothing; otherwise free the left subtree, then the right
subtree, then `free(root)`.  The result is the sequence of pointers passed to `free`, each
pointer standing for the node (with its subtrees) it points to. -/
def free_tree : Node → List Node
  | Node.null => []
  | Node.mk k l r => free_tree l ++ (free_tree r ++ [Node.mk k l r])

/-- The field `root->key` of a node; undefined (`none`) on `NULL`. -/
def rootKey : Node → Option Int
  | Node.null => none
  | Node.mk k _ _ => some k

/-- Height of a tree counted in nodes: the empty tree has height 0, a single node height 1. -/
def height : Node → Nat
  | Node.null => 0
  | Node.mk _ l r => max (height l) (height r) + 1

/-- No node of the tree has a left child. -/
def noLeftChild : Node → Prop
  | Node.null => True
  | Node.mk _ l r => l = Node.null ∧ noLeftChild r

/-- No node of the tree has a right child. -/
def noRightChild : Node → Prop
  | Node.null => True
  | Node.mk _ l r => r = Node.null ∧ noRightChild l

/-- Linear chain: every node of the tree has at most one child. -/
def linearChain : Node → Prop
  | Node.null => True
  | Node.mk _ l r => (l = Node.null ∨ r = Node.null) ∧ linearChain l ∧ linearChain r

/-- Deciding `noLeftChild`. -/
def noLeftChild.dec : (t : Node) → Decidable (noLeftChild t)
  | Node.null => isTrue True.intro
  | Node.mk _ l r =>
    have := noLeftChild.dec r
    (inferInstance : Decidable (l = Node.null ∧ noLeftChild r))

instance (t : Node) : Decidable (noLeftChild t) := noLeftChild.dec t

/-- Deciding `noRightChild`. -/
def noRightChild.dec : (t : Node) → Decidable (noRightChild t)
  | Node.null => isTrue True.intro
  | Node.mk _ l r =>
    have := noRightChild.dec l
    (inferInstance : Decidable (r = Node.null ∧ noRightChild l))

instance (t : Node) : Decidable (noRightChild t) := noRightChild.dec t

/-- Deciding `linearChain`. -/
def linearChain.dec : (t : Node) → Decidable (linearChain t)
  | Node.null => isTrue True.intro
  | Node.mk _ l r =>
    have := linearChain.dec l
    have := linearChain.dec r
    (inferInstance : Decidable ((l = Node.null ∨ r = Node.null) ∧ linearChain l ∧ linearChain r))

instance (t : Node) : Decidable (linearChain t) := linearChain.dec t

/-- The tree whose nodes have no left child and whose keys, read from the root down, are the
given list. -/
def rightSpine : List Int → Node
  | [] => Node.null
  | k :: ks => Node.mk k Node.null (rightSpine ks)

/-- The tree whose nodes have no right child and whose keys, read from the root down, are the
given list. -/
def leftSpine : List Int → Node
  | [] => Node.null
  | k :: ks => Node.mk k (leftSpine ks) Node.null

/-- The tree drawn in the comment of `main`: root 76, left child 33 with leaves 10 and 20,
right child 80 with leaves 50 and 12.  This follows the comment, not the code. -/
def mainTree_documented : Node :=
  Node.mk 76
    (Node.mk 33 (Node.mk 10 Node.null Node.null) (Node.mk 20 Node.null Node.null))
    (Node.mk 80 (Node.mk 50 Node.null Node.null) (Node.mk 12 Node.null Node.null))

/-! ## Lemmas on the key multiset and the invariant -/

theorem allKeys_iff (p : Int → Prop) (t : Node) :
    allKeys p t ↔ ∀ x ∈ keyMultiset t, p x := by
  induction t with
  | null => simp [allKeys, keyMultiset]
  | mk k l r ihl ihr =>
    simp only [allKeys, keyMultiset, ihl, ihr, Multiset.mem_cons, Multiset.mem_add]
    constructor
    · rintro ⟨hk, hl, hr⟩ x (rfl | hx | hx)
      · exact hk
      · exact hl x hx
      · exact hr x hx
    · intro h
      exact ⟨h k (Or.inl rfl), fun x hx => h x (Or.inr (Or.inl hx)),
        fun x hx => h x (Or.inr (Or.inr hx))⟩

theorem keyMultiset_insert (t : Node) (k : Int) :
    keyMultiset (insert t k) = k ::ₘ keyMultiset t := by
  induction t with
  | null => simp [insert, create_node, keyMultiset]
  | mk rk l r ihl ihr =>
    unfold insert
    split
    · simp only [keyMultiset, ihl, Multiset.cons_add]
      exact Multiset.cons_swap rk k _
    · simp only [keyMultiset, ihr, Multiset.add_cons]
      exact Multiset.cons_swap rk k _

theorem keyMultiset_insertKeys (ks : List Int) (t : Node) :
    keyMultiset (insertKeys t ks) = keyMultiset t + (ks : Multiset Int) := by
  induction ks generalizing t with
  | nil => simp [insertKeys]
  | cons a ks ih =>
    have h : insertKeys t (a :: ks) = insertKeys (insert t a) ks := rfl
    rw [h, ih, keyMultiset_insert, ← Multiset.cons_coe, Multiset.cons_add, Multiset.add_cons]

theorem allKeys_insert (p : Int → Prop) (t : Node) (k : Int)
    (ht : allKeys p t) (hk : p k) : allKeys p (insert t k) := by
  rw [allKeys_iff] at ht ⊢
  intro x hx
  rw [keyMultiset_insert, Multiset.mem_cons] at hx
  rcases hx with rfl | hx
  · exact hk
  · exact ht x hx

theorem ordered_insert (t : Node) (k : Int) (ht : ordered t) : ordered (insert t k) := by
  induction t with
  | null => simp [insert, create_node, ordered, allKeys]
  | mk rk l r ihl ihr =>
    obtain ⟨hl, hr, ol, or_⟩ := ht
    unfold insert
    split
    · next hlt => exact ⟨allKeys_insert _ l k hl hlt, hr, ihl ol, or_⟩
    · next hge => exact ⟨hl, allKeys_insert _ r k hr (not_lt.mp hge), ol, ihr or_⟩

theorem ordered_insertKeys (ks : List Int) (t : Node) (ht : ordered t) :
    ordered (insertKeys t ks) := by
  induction ks generalizing t with
  | nil => exact ht
  | cons a ks ih => exact ih (insert t a) (ordered_insert t a ht)

theorem search_isSome_iff (t : Node) (k : Int) (ht : ordered t) :
    (search t k).isSome = true ↔ k ∈ keyMultiset t := by
  induction t with
  | null => simp [search, keyMultiset]
  | mk rk l r ihl ihr =>
    obtain ⟨hl, hr, ol, or_⟩ := ht
    rw [allKeys_iff] at hl hr
    unfold search
    simp only [keyMultiset, Multiset.mem_cons, Multiset.mem_add]
    by_cases h1 : k = rk
    · simp [h1]
    · rw [if_neg h1]
      by_cases h2 : k < rk
      · rw [if_pos h2, ihl ol]
        constructor
        · intro h; exact Or.inr (Or.inl h)
        · rintro (h | h | h)
          · exact absurd h h1
          · exact h
          · exact absurd (hr k h) (not_le.mpr h2)
      · rw [if_neg h2, ihr or_]
        constructor
        · intro h; exact Or.inr (Or.inr h)
        · rintro (h | h | h)
          · exact absurd h h1
          · exact absurd (hl k h) h2
          · exact h

theorem search_insert_of_isSome (t : Node) (k k2 : Int)
    (h : (search t k).isSome = true) : (search (insert t k2) k).isSome = true := by
  induction t with
  | null => simp [search] at h
  | mk rk l r ihl ihr =>
    unfold search at h
    unfold insert
    by_cases h1 : k = rk
    · split <;> simp [search, h1]
    · rw [if_neg h1] at h
      by_cases h2 : k < rk
      · rw [if_pos h2] at h
        split
        · simp only [search, if_neg h1, if_pos h2]; exact ihl h
        · simp only [search, if_neg h1, if_pos h2]; exact h
      · rw [if_neg h2] at h
        split
        · simp only [search, if_neg h1, if_neg h2]; exact h
        · simp only [search, if_neg h1, if_neg h2]; exact ihr h

theorem search_insert_self (t : Node) (k : Int) :
    (search (insert t k) k).isSome = true := by
  induction t with
  | null => simp [insert, create_node, search]
  | mk rk l r ihl ihr =>
    unfold insert
    by_cases h1 : k = rk
    · split <;> simp [search, h1]
    · by_cases h2 : k < rk
      · rw [if_pos h2]; simp only [search, if_neg h1, if_pos h2]; exact ihl
      · rw [if_neg h2]; simp only [search, if_neg h1, if_neg h2]; exact ihr

theorem search_insertKeys_of_isSome (ks : List Int) (t : Node) (k : Int)
    (h : (search t k).isSome = true) : (search (insertKeys t ks) k).isSome = true := by
  induction ks generalizing t with
  | nil => exact h
  | cons a ks ih => exact ih (insert t a) (search_insert_of_isSome t k a h)

theorem search_insertKeys_of_mem (ks : List Int) (t : Node) (k : Int)
    (h : k ∈ ks) : (search (insertKeys t ks) k).isSome = true := by
  induction ks generalizing t with
  | nil => simp at h
  | cons a ks ih =>
    rcases List.mem_cons.mp h with rfl | h
    · exact search_insertKeys_of_isSome ks (insert t k) k (search_insert_self t k)
    · exact ih (insert t a) h

theorem inorder_coe (t : Node) : (inorder t : Multiset Int) = keyMultiset t := by
  induction t with
  | null => rfl
  | mk k l r ihl ihr =>
    simp only [inorder, keyMultiset, ← Multiset.coe_add, ← Multiset.cons_coe, ← ihl, ← ihr]
    rw [Multiset.add_cons, add_comm]

theorem preorder_coe (t : Node) : (preorder t : Multiset Int) = keyMultiset t := by
  induction t with
  | null => rfl
  | mk k l r ihl ihr =>
    simp only [preorder, keyMultiset, ← Multiset.coe_add, ← Multiset.cons_coe, ← ihl, ← ihr]

theorem postorder_coe (t : Node) : (postorder t : Multiset Int) = keyMultiset t := by
  induction t with
  | null => rfl
  | mk k l r ihl ihr =>
    simp only [postorder, keyMultiset, ← Multiset.coe_add, ← ihl, ← ihr]
    rw [← Multiset.singleton_add, ← Multiset.coe_singleton]
    abel

theorem card_keyMultiset (t : Node) : Multiset.card (keyMultiset t) = size t := by
  induction t with
  | null => rfl
  | mk k l r ihl ihr => simp [keyMultiset, size, ihl, ihr]

theorem mem_inorder (t : Node) (x : Int) : x ∈ inorder t ↔ x ∈ keyMultiset t := by
  rw [← inorder_coe, Multiset.mem_coe]

theorem inorder_pairwise (t : Node) (ht : ordered t) :
    List.Pairwise (fun a b => b ≤ a) (inorder t) := by
  induction t with
  | null => exact List.Pairwise.nil
  | mk k l r ihl ihr =>
    obtain ⟨hl, hr, ol, or_⟩ := ht
    rw [allKeys_iff] at hl hr
    simp only [inorder]
    rw [List.pairwise_append]
    refine ⟨ihr or_, ?_, ?_⟩
    · rw [List.pairwise_cons]
      exact ⟨fun b hb => le_of_lt (hl b ((mem_inorder l b).mp hb)), ihl ol⟩
    · intro a ha b hb
      have hka : k ≤ a := hr a ((mem_inorder r a).mp ha)
      rcases List.mem_cons.mp hb with rfl | hb
      · exact hka
      · exact le_trans (le_of_lt (hl b ((mem_inorder l b).mp hb))) hka

theorem size_insert (t : Node) (k : Int) : size (insert t k) = size t + 1 := by
  rw [← card_keyMultiset, ← card_keyMultiset, keyMultiset_insert, Multiset.card_cons]

theorem inorder_eq_reverse_documented (t : Node) :
    inorder t = (inorder_documented t).reverse := by
  induction t with
  | null => rfl
  | mk k l r ihl ihr => simp [inorder, inorder_documented, ihl, ihr]

/-! ## The claims -/

/-- C1: after inserting any finite key sequence `ks` one by one into the empty tree, `search`
returns a node for `k` exactly when `k` occurs in `ks`; in particular, after the insertions of
`main`, key 10 is found and key 25 is absent. -/
theorem search_finds_exactly_inserted :
    (∀ (ks : List Int) (k : Int),
      (search (insertKeys Node.null ks) k).isSome = true ↔ k ∈ ks) ∧
    (search (insertKeys Node.null [76, 33, 80, 10, 20, 50, 12]) 10).isSome = true ∧
    search (insertKeys Node.null [76, 33, 80, 10, 20, 50, 12]) 25 = none := by
  refine ⟨fun ks k => ?_, by decide, by decide⟩
  rw [search_isSome_iff _ _ (ordered_insertKeys ks Node.null True.intro),
    keyMultiset_insertKeys]
  simp [keyMultiset]

/-- C2: the BST order invariant holds for the empty tree, is preserved by `insert`, and hence
holds for every tree built from the empty tree by a sequence of inserts. -/
theorem ordered_invariant :
    ordered Node.null ∧
    (∀ (t : Node) (k : Int), ordered t → ordered (insert t k)) ∧
    (∀ ks : List Int, ordered (insertKeys Node.null ks)) :=
  ⟨True.intro, ordered_insert, fun ks => ordered_insertKeys ks Node.null True.intro⟩

/-- Witness for C2: an ordered two-node tree stays ordered after inserting a duplicate of its
root key. -/
theorem ordered_invariant_witness :
    ordered (Node.mk 5 (Node.mk 3 Node.null Node.null) Node.null) ∧
    ordered (insert (Node.mk 5 (Node.mk 3 Node.null Node.null) Node.null) 5) :=
  ⟨by decide, ordered_invariant.2.1 _ 5 (by decide)⟩

/-- C3: for every tree satisfying the BST order invariant (empty or not), the key sequence
printed by `inorder` (right subtree, node, left subtree) is non-increasing: every element is
greater than or equal to every later one, in particular to the next one. -/
theorem inorder_nonincreasing (t : Node) (h : ordered t) :
    List.Sorted (fun a b => a ≥ b) (inorder t) ∧ List.Chain' (fun a b => a ≥ b) (inorder t) :=
  ⟨inorder_pairwise t h, List.Pairwise.chain' (inorder_pairwise t h)⟩

/-- Witness for C3: the tree built by `main`. -/
theorem inorder_nonincreasing_witness :
    ordered mainTree ∧
    List.Sorted (fun a b => a ≥ b) (inorder mainTree) ∧
    List.Chain' (fun a b => a ≥ b) (inorder mainTree) :=
  ⟨by decide, inorder_nonincreasing mainTree (by decide)⟩

/-- C4: the documentation of `tree.c` announces an inorder traversal left, root, right with
ascending output.  The code of `inorder` prints the reverse of that order on every tree, and on
the tree built by `main` (which satisfies the BST invariant) its output differs from the
documented traversal and is not ascending. -/
theorem inorder_contradicts_documentation :
    (∀ t : Node, inorder t = (inorder_documented t).reverse) ∧
    ordered mainTree ∧
    inorder mainTree ≠ inorder_documented mainTree ∧
    ¬ List.Chain' (fun a b => a ≤ b) (inorder mainTree) ∧
    List.Chain' (fun a b => a ≤ b) (inorder_documented mainTree) := by
  have h1 : inorder mainTree = [80, 76, 50, 33, 20, 12, 10] := by decide
  have h2 : inorder_documented mainTree = [10, 12, 20, 33, 50, 76, 80] := by decide
  refine ⟨inorder_eq_reverse_documented, by decide, by decide, ?_, ?_⟩
  · rw [h1]; simp
  · rw [h2]; simp

/-- C5: `insert` changes only the subtree it descends into.  On the empty tree it returns a
single node with the key and no children.  On a node with root key `r` and subtrees `L`, `R` it
keeps `r`; for `k < r` it keeps `R` and inserts into `L`; for `r ≤ k`, equality included, it
keeps `L` and inserts into `R`. -/
theorem insert_frame :
    (∀ k : Int, insert Node.null k = Node.mk k Node.null Node.null) ∧
    (∀ (r : Int) (L R : Node) (k : Int), k < r →
      insert (Node.mk r L R) k = Node.mk r (insert L k) R) ∧
    (∀ (r : Int) (L R : Node) (k : Int), r ≤ k →
      insert (Node.mk r L R) k = Node.mk r L (insert R k)) := by
  refine ⟨fun k => rfl, fun r L R k h => ?_, fun r L R k h => ?_⟩
  · simp only [insert, if_pos h]
  · simp only [insert, if_neg (not_lt.mpr h)]

/-- Witness for C5: inserting 3 and then 5 below a root with key 5. -/
theorem insert_frame_witness :
    insert (Node.mk 5 Node.null Node.null) 3
      = Node.mk 5 (insert Node.null 3) Node.null ∧
    insert (Node.mk 5 (Node.mk 3 Node.null Node.null) Node.null) 5
      = Node.mk 5 (Node.mk 3 Node.null Node.null) (insert Node.null 5) :=
  ⟨insert_frame.2.1 5 Node.null Node.null 3 (by decide),
   insert_frame.2.2 5 (Node.mk 3 Node.null Node.null) Node.null 5 (by decide)⟩

/-- C6: for every tree and key, present already or not, `insert` adds exactly one node: the
multiset of keys gains one occurrence of the key and the node count grows by one. -/
theorem insert_adds_exactly_one (t : Node) (k : Int) :
    keyMultiset (insert t k) = k ::ₘ keyMultiset t ∧ size (insert t k) = size t + 1 :=
  ⟨keyMultiset_insert t k, size_insert t k⟩

/-- C7: a later insertion never hides a key: if `search` finds `k` in `t` it still finds `k`
after inserting any `k2`.  Consequently, after inserting a sequence `ks` twice in a row into
any tree `t`, `search` succeeds for every key found in `t` before and for every key of `ks`. -/
theorem search_survives_insert :
    (∀ (t : Node) (k k2 : Int),
      (search t k).isSome = true → (search (insert t k2) k).isSome = true) ∧
    (∀ (t : Node) (ks : List Int) (k : Int),
      ((search t k).isSome = true ∨ k ∈ ks) →
      (search (insertKeys (insertKeys t ks) ks) k).isSome = true) := by
  refine ⟨search_insert_of_isSome, fun t ks k h => ?_⟩
  apply search_insertKeys_of_isSome
  rcases h with h | h
  · exact search_insertKeys_of_isSome ks t k h
  · exact search_insertKeys_of_mem ks t k h

/-- Witness for C7: key 3 stays found after inserting 7, and after inserting `[7, 1]` twice
both the old key 3 and the new key 1 are found. -/
theorem search_survives_insert_witness :
    (search (Node.mk 5 (Node.mk 3 Node.null Node.null) Node.null) 3).isSome = true ∧
    (search (insert (Node.mk 5 (Node.mk 3 Node.null Node.null) Node.null) 7) 3).isSome = true ∧
    (search (insertKeys (insertKeys
      (Node.mk 5 (Node.mk 3 Node.null Node.null) Node.null) [7, 1]) [7, 1]) 3).isSome = true ∧
    (search (insertKeys (insertKeys
      (Node.mk 5 (Node.mk 3 Node.null Node.null) Node.null) [7, 1]) [7, 1]) 1).isSome = true :=
  ⟨by decide,
   search_survives_insert.1 _ 3 7 (by decide),
   search_survives_insert.2 _ [7, 1] 3 (Or.inl (by decide)),
   search_survives_insert.2 _ [7, 1] 1 (Or.inr (by decide))⟩

/-- C8: each traversal visits every node exactly once: the sequences printed by `inorder`,
`preorder` and `postorder` each have as many elements as the tree has nodes, each is the
multiset of keys of the tree, and they are permutations of one another. -/
theorem traversals_visit_each_node_once (t : Node) :
    (inorder t).length = size t ∧ (preorder t).length = size t ∧
    (postorder t).length = size t ∧
    (inorder t : Multiset Int) = keyMultiset t ∧
    (preorder t : Multiset Int) = keyMultiset t ∧
    (postorder t : Multiset Int) = keyMultiset t ∧
    List.Perm (inorder t) (preorder t) ∧ List.Perm (preorder t) (postorder t) ∧
    List.Perm (inorder t) (postorder t) := by
  have hi := inorder_coe t
  have hp := preorder_coe t
  have hq := postorder_coe t
  have hc := card_keyMultiset t
  refine ⟨?_, ?_, ?_, hi, hp, hq, ?_, ?_, ?_⟩
  · rw [← hc, ← hi, Multiset.coe_card]
  · rw [← hc, ← hp, Multiset.coe_card]
  · rw [← hc, ← hq, Multiset.coe_card]
  · exact Multiset.coe_eq_coe.mp (hi.trans hp.symm)
  · exact Multiset.coe_eq_coe.mp (hp.trans hq.symm)
  · exact Multiset.coe_eq_coe.mp (hi.trans hq.symm)

/-- C9: for every non-empty tree, the first key printed by `preorder` is the key of the
root. -/
theorem preorder_first_is_root (k : Int) (l r : Node) :
    (preorder (Node.mk k l r)).head? = some k := by
  simp [preorder]

/-- C10: for every non-empty tree, the last key printed by `postorder` is the key of the
root. -/
theorem postorder_last_is_root (k : Int) (l r : Node) :
    (postorder (Node.mk k l r)).getLast? = some k := by
  simp only [postorder, ← List.append_assoc, List.getLast?_append, List.getLast?_singleton]
  rfl

/-! ## The demonstration run of `main` -/

/-- C11: inserting 76, 33, 80, 10, 20, 50, 12 in that order into the empty tree and calling
`inorder` prints exactly 80 76 50 33 20 12 10. -/
theorem inorder_main_scenario :
    inorder (insertKeys Node.null [76, 33, 80, 10, 20, 50, 12])
      = [80, 76, 50, 33, 20, 12, 10] := by
  decide

/-- C12, as stated, fails: after the insertions of `main`, `preorder` does not print
76 33 10 20 80 50 12. -/
theorem preorder_main_scenario_fails :
    preorder (insertKeys Node.null [76, 33, 80, 10, 20, 50, 12])
      ≠ [76, 33, 10, 20, 80, 50, 12] := by
  decide

/-- C12 amended: inserting 76, 33, 80, 10, 20, 50, 12 in that order into the empty tree and
calling `preorder` prints exactly 76 33 10 20 12 50 80. -/
theorem preorder_main_scenario :
    preorder (insertKeys Node.null [76, 33, 80, 10, 20, 50, 12])
      = [76, 33, 10, 20, 12, 50, 80] := by
  decide

/-- C13, as stated, fails: after the insertions of `main`, `postorder` does not print
10 20 33 50 12 80 76. -/
theorem postorder_main_scenario_fails :
    postorder (insertKeys Node.null [76, 33, 80, 10, 20, 50, 12])
      ≠ [10, 20, 33, 50, 12, 80, 76] := by
  decide

/-- C13 amended: inserting 76, 33, 80, 10, 20, 50, 12 in that order into the empty tree and
calling `postorder` prints exactly 12 20 10 50 33 80 76. -/
theorem postorder_main_scenario :
    postorder (insertKeys Node.null [76, 33, 80, 10, 20, 50, 12])
      = [12, 20, 10, 50, 33, 80, 76] := by
  decide

theorem free_tree_keys (t : Node) :
    (free_tree t).map rootKey = (postorder t).map some := by
  induction t with
  | null => rfl
  | mk k l r ihl ihr => simp [free_tree, postorder, rootKey, ihl, ihr]

theorem free_tree_length (t : Node) : (free_tree t).length = size t := by
  induction t with
  | null => rfl
  | mk k l r ihl ihr => simp [free_tree, size, ihl, ihr, Nat.add_assoc]

theorem free_tree_ne_null (t : Node) : ∀ n ∈ free_tree t, n ≠ Node.null := by
  induction t with
  | null => simp [free_tree]
  | mk k l r ihl ihr =>
    intro n hn
    simp only [free_tree, List.mem_append, List.mem_singleton] at hn
    rcases hn with hn | hn | hn
    · exact ihl n hn
    · exact ihr n hn
    · rw [hn]; exact Node.noConfusion

/-- C14: `free_tree` frees a node only after all nodes of its left subtree and then all nodes
of its right subtree; the sequence of freed nodes consists of nodes only (never `NULL`), read
by key it is the `postorder` sequence of the tree, and its length is the node count, so every
node is freed exactly once. -/
theorem free_tree_is_postorder :
    (∀ (k : Int) (l r : Node),
      free_tree (Node.mk k l r) = free_tree l ++ free_tree r ++ [Node.mk k l r]) ∧
    (∀ t : Node, (free_tree t).map rootKey = (postorder t).map some) ∧
    (∀ t : Node, (free_tree t).length = size t) ∧
    (∀ t : Node, ∀ n ∈ free_tree t, n ≠ Node.null) := by
  refine ⟨fun k l r => ?_, free_tree_keys, free_tree_length, free_tree_ne_null⟩
  simp [free_tree]

/-- C15, as stated, fails: the tree built by the insertions of `main` is not the tree drawn in
the comment of `main`; the drawn tree does not even satisfy the BST order invariant, and
`search` does not find 20 in it. -/
theorem main_tree_is_not_the_drawn_tree :
    insertKeys Node.null [76, 33, 80, 10, 20, 50, 12] ≠ mainTree_documented ∧
    ¬ ordered mainTree_documented ∧
    search mainTree_documented 20 = none := by
  decide

/-- C15 amended: inserting 76, 33, 80, 10, 20, 50, 12 in that order into the empty tree
produces the tree with root 76, whose left child 33 has left child 10 and right child 50 (a
leaf), where 10 has no left child and right child 20, and 20 has left child 12 (a leaf) and no
right child; the right child 80 of the root is a leaf. -/
theorem main_tree_shape :
    insertKeys Node.null [76, 33, 80, 10, 20, 50, 12] =
      Node.mk 76
        (Node.mk 33
          (Node.mk 10 Node.null
            (Node.mk 20 (Node.mk 12 Node.null Node.null) Node.null))
          (Node.mk 50 Node.null Node.null))
        (Node.mk 80 Node.null Node.null) := by
  decide

/-! ## Monotone insertion orders -/

theorem insertKeys_cons (t : Node) (a : Int) (ks : List Int) :
    insertKeys t (a :: ks) = insertKeys (insert t a) ks := rfl

theorem insert_rightSpine (ks : List Int) (k : Int) (h : ∀ x ∈ ks, x ≤ k) :
    insert (rightSpine ks) k = rightSpine (ks ++ [k]) := by
  induction ks with
  | nil => rfl
  | cons a ks ih =>
    have ha : ¬ k < a := not_lt.mpr (h a (List.mem_cons_self _ _))
    have e : (a :: ks) ++ [k] = a :: (ks ++ [k]) := rfl
    rw [e]
    simp only [rightSpine, insert, if_neg ha]
    rw [ih (fun x hx => h x (List.mem_cons_of_mem _ hx))]

theorem insert_leftSpine (ks : List Int) (k : Int) (h : ∀ x ∈ ks, k < x) :
    insert (leftSpine ks) k = leftSpine (ks ++ [k]) := by
  induction ks with
  | nil => rfl
  | cons a ks ih =>
    have ha : k < a := h a (List.mem_cons_self _ _)
    have e : (a :: ks) ++ [k] = a :: (ks ++ [k]) := rfl
    rw [e]
    simp only [leftSpine, insert, if_pos ha]
    rw [ih (fun x hx => h x (List.mem_cons_of_mem _ hx))]

theorem insertKeys_rightSpine (ks pre : List Int)
    (h : List.Pairwise (fun a b => a ≤ b) (pre ++ ks)) :
    insertKeys (rightSpine pre) ks = rightSpine (pre ++ ks) := by
  induction ks generalizing pre with
  | nil => simp [insertKeys]
  | cons a ks ih =>
    have hpre : ∀ x ∈ pre, x ≤ a := fun x hx =>
      (List.pairwise_append.mp h).2.2 x hx a (List.mem_cons_self _ _)
    have h2 : List.Pairwise (fun a b => a ≤ b) ((pre ++ [a]) ++ ks) := by
      simpa using h
    rw [insertKeys_cons, insert_rightSpine pre a hpre, ih (pre ++ [a]) h2]
    simp

theorem insertKeys_leftSpine (ks pre : List Int)
    (h : List.Pairwise (fun a b => a > b) (pre ++ ks)) :
    insertKeys (leftSpine pre) ks = leftSpine (pre ++ ks) := by
  induction ks generalizing pre with
  | nil => simp [insertKeys]
  | cons a ks ih =>
    have hpre : ∀ x ∈ pre, a < x := fun x hx =>
      (List.pairwise_append.mp h).2.2 x hx a (List.mem_cons_self _ _)
    have h2 : List.Pairwise (fun a b => a > b) ((pre ++ [a]) ++ ks) := by
      simpa using h
    rw [insertKeys_cons, insert_leftSpine pre a hpre, ih (pre ++ [a]) h2]
    simp

theorem noLeftChild_rightSpine (ks : List Int) : noLeftChild (rightSpine ks) := by
  induction ks with
  | nil => exact True.intro
  | cons a ks ih => exact ⟨rfl, ih⟩

theorem noRightChild_leftSpine (ks : List Int) : noRightChild (leftSpine ks) := by
  induction ks with
  | nil => exact True.intro
  | cons a ks ih => exact ⟨rfl, ih⟩

theorem linearChain_rightSpine (ks : List Int) : linearChain (rightSpine ks) := by
  induction ks with
  | nil => exact True.intro
  | cons a ks ih => exact ⟨Or.inl rfl, True.intro, ih⟩

theorem linearChain_leftSpine (ks : List Int) : linearChain (leftSpine ks) := by
  induction ks with
  | nil => exact True.intro
  | cons a ks ih => exact ⟨Or.inr rfl, ih, True.intro⟩

theorem height_rightSpine (ks : List Int) : height (rightSpine ks) = ks.length := by
  induction ks with
  | nil => rfl
  | cons a ks ih => simp [rightSpine, height, ih]

theorem height_leftSpine (ks : List Int) : height (leftSpine ks) = ks.length := by
  induction ks with
  | nil => rfl
  | cons a ks ih => simp [leftSpine, height, ih]

/-- C16: for every key sequence sorted in non-decreasing order (equal neighbours allowed),
inserting it in that order into the empty tree produces a degenerate tree: no node has a left
child, every node has at most one child, and the height equals the length of the sequence. -/
theorem sorted_inserts_degenerate (ks : List Int)
    (h : List.Sorted (fun a b => a ≤ b) ks) :
    noLeftChild (insertKeys Node.null ks) ∧ linearChain (insertKeys Node.null ks) ∧
    height (insertKeys Node.null ks) = ks.length := by
  have e : insertKeys Node.null ks = rightSpine ks := insertKeys_rightSpine ks [] h
  rw [e]
  exact ⟨noLeftChild_rightSpine ks, linearChain_rightSpine ks, height_rightSpine ks⟩

/-- Witness for C16: the non-decreasing sequence 1, 2, 2, 7 with an equal neighbour pair. -/
theorem sorted_inserts_degenerate_witness :
    List.Sorted (fun a b : Int => a ≤ b) [1, 2, 2, 7] ∧
    noLeftChild (insertKeys Node.null [1, 2, 2, 7]) ∧
    linearChain (insertKeys Node.null [1, 2, 2, 7]) ∧
    height (insertKeys Node.null [1, 2, 2, 7]) = ([1, 2, 2, 7] : List Int).length :=
  ⟨by decide, sorted_inserts_degenerate [1, 2, 2, 7] (by decide)⟩

/-- C17, as stated, fails: 5, 5, 3 is non-increasing, yet inserting it into the empty tree
gives a root with two children: not a linear chain, and of height 2 instead of 3. -/
theorem nonincreasing_inserts_not_chain :
    List.Sorted (fun a b : Int => a ≥ b) [5, 5, 3] ∧
    insertKeys Node.null [5, 5, 3]
      = Node.mk 5 (Node.mk 3 Node.null Node.null) (Node.mk 5 Node.null Node.null) ∧
    ¬ linearChain (insertKeys Node.null [5, 5, 3]) ∧
    height (insertKeys Node.null [5, 5, 3]) ≠ ([5, 5, 3] : List Int).length := by
  decide

/-- C17 amended: for every key sequence in strictly decreasing order, inserting it in that
order into the empty tree produces a linear chain (no node has a right child) whose height
equals the length of the sequence. -/
theorem decreasing_inserts_chain (ks : List Int)
    (h : List.Sorted (fun a b => a > b) ks) :
    linearChain (insertKeys Node.null ks) ∧ noRightChild (insertKeys Node.null ks) ∧
    height (insertKeys Node.null ks) = ks.length := by
  have e : insertKeys Node.null ks = leftSpine ks := insertKeys_leftSpine ks [] h
  rw [e]
  exact ⟨linearChain_leftSpine ks, noRightChild_leftSpine ks, height_leftSpine ks⟩

/-- Witness for C17 amended: the strictly decreasing sequence 9, 5, 3, 1. -/
theorem decreasing_inserts_chain_witness :
    List.Sorted (fun a b : Int => a > b) [9, 5, 3, 1] ∧
    linearChain (insertKeys Node.null [9, 5, 3, 1]) ∧
    noRightChild (insertKeys Node.null [9, 5, 3, 1]) ∧
    height (insertKeys Node.null [9, 5, 3, 1]) = ([9, 5, 3, 1] : List Int).length :=
  ⟨by decide, decreasing_inserts_chain [9, 5, 3, 1] (by decide)⟩

/-! ## Tree sort, rebuilding from preorder, duplicates -/

theorem inorder_insertKeys_perm (ks : List Int) :
    List.Perm (inorder (insertKeys Node.null ks)) ks := by
  apply Multiset.coe_eq_coe.mp
  rw [inorder_coe, keyMultiset_insertKeys]
  simp [keyMultiset]

/-- C18: tree sort.  For every key sequence `ks`, inserting `ks` in order into the empty tree
and calling `inorder` prints exactly `ks` sorted into non-increasing order: the output is a
permutation of `ks` (duplicates kept), it is non-increasing, and it is the list computed by
insertion sort for the order `≥`. -/
theorem tree_sort (ks : List Int) :
    List.Perm (inorder (insertKeys Node.null ks)) ks ∧
    List.Sorted (fun a b => a ≥ b) (inorder (insertKeys Node.null ks)) ∧
    inorder (insertKeys Node.null ks) = List.insertionSort (fun a b => a ≥ b) ks := by
  have hp := inorder_insertKeys_perm ks
  have hs : List.Sorted (fun a b : Int => a ≥ b) (inorder (insertKeys Node.null ks)) :=
    inorder_pairwise _ (ordered_insertKeys ks Node.null True.intro)
  refine ⟨hp, hs, ?_⟩
  have hanti : IsAntisymm Int (fun a b => a ≥ b) := ⟨fun a b hab hba => le_antisymm hba hab⟩
  have htot : IsTotal Int (fun a b => a ≥ b) := ⟨fun a b => le_total b a⟩
  have htr : IsTrans Int (fun a b => a ≥ b) := ⟨fun a b c hab hbc => le_trans hbc hab⟩
  exact List.eq_of_perm_of_sorted
    (hp.trans (List.perm_insertionSort (fun a b => a ≥ b) ks).symm) hs
    (List.sorted_insertionSort (fun a b => a ≥ b) ks)

theorem insertKeys_append (t : Node) (a b : List Int) :
    insertKeys t (a ++ b) = insertKeys (insertKeys t a) b := by
  simp [insertKeys, List.foldl_append]

theorem insertKeys_left (xs : List Int) (k : Int) (l r : Node) (h : ∀ x ∈ xs, x < k) :
    insertKeys (Node.mk k l r) xs = Node.mk k (insertKeys l xs) r := by
  induction xs generalizing l with
  | nil => rfl
  | cons a xs ih =>
    have ha : a < k := h a (List.mem_cons_self _ _)
    have e : insert (Node.mk k l r) a = Node.mk k (insert l a) r := by
      simp only [insert, if_pos ha]
    rw [insertKeys_cons, insertKeys_cons, e]
    exact ih (insert l a) (fun x hx => h x (List.mem_cons_of_mem _ hx))

theorem insertKeys_right (xs : List Int) (k : Int) (l r : Node) (h : ∀ x ∈ xs, k ≤ x) :
    insertKeys (Node.mk k l r) xs = Node.mk k l (insertKeys r xs) := by
  induction xs generalizing r with
  | nil => rfl
  | cons a xs ih =>
    have ha : ¬ a < k := not_lt.mpr (h a (List.mem_cons_self _ _))
    have e : insert (Node.mk k l r) a = Node.mk k l (insert r a) := by
      simp only [insert, if_neg ha]
    rw [insertKeys_cons, insertKeys_cons, e]
    exact ih (insert r a) (fun x hx => h x (List.mem_cons_of_mem _ hx))

theorem mem_preorder (t : Node) (x : Int) : x ∈ preorder t ↔ x ∈ keyMultiset t := by
  rw [← preorder_coe, Multiset.mem_coe]

theorem insertKeys_preorder_eq (t : Node) (ht : ordered t) :
    insertKeys Node.null (preorder t) = t := by
  induction t with
  | null => rfl
  | mk k l r ihl ihr =>
    obtain ⟨hl, hr, ol, or_⟩ := ht
    rw [allKeys_iff] at hl hr
    have e : preorder (Node.mk k l r) = k :: (preorder l ++ preorder r) := rfl
    have e0 : insert Node.null k = Node.mk k Node.null Node.null := rfl
    rw [e, insertKeys_cons, e0, insertKeys_append,
      insertKeys_left (preorder l) k Node.null Node.null
        (fun x hx => hl x ((mem_preorder l x).mp hx)),
      insertKeys_right (preorder r) k _ Node.null
        (fun x hx => hr x ((mem_preorder r x).mp hx)),
      ihl ol, ihr or_]

/-- C19: insertion order is recoverable from preorder.  For every tree satisfying the BST
order invariant, inserting the keys printed by `preorder`, in that order, into the empty tree
rebuilds exactly that tree. -/
theorem rebuild_from_preorder (t : Node) (h : ordered t) :
    insertKeys Node.null (preorder t) = t :=
  insertKeys_preorder_eq t h

/-- Witness for C19: the ordered tree with root 5, left child 3 (with right child 4) and a
duplicate 5 to the right, which has right child 8. -/
theorem rebuild_from_preorder_witness :
    ordered (Node.mk 5 (Node.mk 3 Node.null (Node.mk 4 Node.null Node.null))
      (Node.mk 5 Node.null (Node.mk 8 Node.null Node.null))) ∧
    insertKeys Node.null
      (preorder (Node.mk 5 (Node.mk 3 Node.null (Node.mk 4 Node.null Node.null))
        (Node.mk 5 Node.null (Node.mk 8 Node.null Node.null))))
      = Node.mk 5 (Node.mk 3 Node.null (Node.mk 4 Node.null Node.null))
        (Node.mk 5 Node.null (Node.mk 8 Node.null Node.null)) :=
  ⟨by decide, rebuild_from_preorder _ (by decide)⟩

theorem search_topmost (t : Node) (k : Int) (ht : ordered t) (hk : k ∈ keyMultiset t) :
    ∃ l r : Node, search t k = some (Node.mk k l r) ∧
      Multiset.count k (keyMultiset l) = 0 ∧
      Multiset.count k (keyMultiset (Node.mk k l r)) = Multiset.count k (keyMultiset t) := by
  induction t with
  | null => simp [keyMultiset] at hk
  | mk rk l r ihl ihr =>
    obtain ⟨hl, hr, ol, or_⟩ := ht
    rw [allKeys_iff] at hl hr
    by_cases h1 : k = rk
    · subst h1
      refine ⟨l, r, by simp [search], ?_, rfl⟩
      exact Multiset.count_eq_zero.mpr (fun hm => lt_irrefl _ (hl k hm))
    · simp only [keyMultiset, Multiset.mem_cons, Multiset.mem_add] at hk
      by_cases h2 : k < rk
      · have hr0 : Multiset.count k (keyMultiset r) = 0 :=
          Multiset.count_eq_zero.mpr (fun hm => absurd (hr k hm) (not_le.mpr h2))
        have hkl : k ∈ keyMultiset l := by
          rcases hk with h | h | h
          · exact absurd h h1
          · exact h
          · exact absurd (hr k h) (not_le.mpr h2)
        obtain ⟨a, b, hs, h0, hc⟩ := ihl ol hkl
        refine ⟨a, b, by simp only [search, if_neg h1, if_pos h2, hs], h0, ?_⟩
        rw [hc]
        simp [keyMultiset, Multiset.count_cons_of_ne h1, hr0]
      · have hl0 : Multiset.count k (keyMultiset l) = 0 :=
          Multiset.count_eq_zero.mpr (fun hm => h2 (hl k hm))
        have hkr : k ∈ keyMultiset r := by
          rcases hk with h | h | h
          · exact absurd h h1
          · exact absurd (hl k h) h2
          · exact h
        obtain ⟨a, b, hs, h0, hc⟩ := ihr or_ hkr
        refine ⟨a, b, by simp only [search, if_neg h1, if_neg h2, hs], h0, ?_⟩
        rw [hc]
        simp [keyMultiset, Multiset.count_cons_of_ne h1, hl0]

/-- C20: with duplicates, `search` returns the topmost occurrence.  For every tree `t`
satisfying the BST order invariant and every key `k` occurring in `t`, `search t k` returns a
node with key `k` whose left subtree holds no `k`, and the number of occurrences of `k` in the
subtree rooted at the returned node (the node itself and its right subtree) equals the number
of occurrences of `k` in `t`. -/
theorem search_returns_topmost (t : Node) (k : Int)
    (ht : ordered t) (hk : k ∈ keyMultiset t) :
    ∃ l r : Node, search t k = some (Node.mk k l r) ∧
      Multiset.count k (keyMultiset l) = 0 ∧
      Multiset.count k (keyMultiset (Node.mk k l r)) = Multiset.count k (keyMultiset t) ∧
      Multiset.count k (keyMultiset t) = Multiset.count k (keyMultiset r) + 1 := by
  obtain ⟨l, r, hs, h0, hc⟩ := search_topmost t k ht hk
  refine ⟨l, r, hs, h0, hc, ?_⟩
  rw [← hc]
  simp [keyMultiset, h0]

/-- Witness for C20: the tree built from 7, 5, 3, 5, 6, 5 holds key 5 three times, and
`search` for 5 returns the topmost of them, below the root. -/
theorem search_returns_topmost_witness :
    ordered (insertKeys Node.null [7, 5, 3, 5, 6, 5]) ∧
    (5 : Int) ∈ keyMultiset (insertKeys Node.null [7, 5, 3, 5, 6, 5]) ∧
    ∃ l r : Node, search (insertKeys Node.null [7, 5, 3, 5, 6, 5]) 5 = some (Node.mk 5 l r) ∧
      Multiset.count 5 (keyMultiset l) = 0 ∧
      Multiset.count 5 (keyMultiset (Node.mk 5 l r))
        = Multiset.count 5 (keyMultiset (insertKeys Node.null [7, 5, 3, 5, 6, 5])) ∧
      Multiset.count 5 (keyMultiset (insertKeys Node.null [7, 5, 3, 5, 6, 5]))
        = Multiset.count 5 (keyMultiset r) + 1 :=
  ⟨by decide, by decide, search_returns_topmost _ 5 (by decide) (by decide)⟩

end Trees
